import Mathlib

/-!
Shallow embedding of the lineage-panel graph index from
src/webview_provider/lineagePanel.ts: the per-project snapshot store
(onManifestCacheChanged), the node resolver (getStartingNode), the
connected-tables query engine (getConnectedTables and its direction
wrappers) and the request gateway (handleRequest).

JavaScript runtime constructs are embedded as follows:
* a JavaScript Map with string keys is an insertion-ordered association
  list (SMap); Map.get / Map.set / Map.delete / Map.keys follow the
  ECMAScript semantics (set overwrites in place, delete of an absent key
  is a no-op, iteration is in insertion order);
* String.prototype.startsWith / endsWith are character-sequence checks
  (strStartsWith / strEndsWith);
* String.prototype.localeCompare is an abstract comparator parameter
  lcompare : String -> String -> Int (negative, zero or positive);
* Array.prototype.sort with a comparator is a stable insertion sort
  (sortTables); ECMAScript only promises a stable sort that is sorted
  whenever the comparator is consistent, which this realises;
* undefined results are Option.none.
-/

namespace LineagePanel

/-- Embedding of the Table record type (lineagePanel.ts lines 177-182). -/
structure Table where
  table : String
  url : String
  count : Nat
  label : String
  deriving DecidableEq

/-- One entry of a node's neighbor list as consumed by getConnectedTables
(the child objects with key, url and label, lineagePanel.ts line 284). -/
structure NeighborRef where
  key : String
  url : String
  label : String
  deriving DecidableEq

/-- The value stored for a node in one adjacency view of the GraphMetaMap:
an object carrying the neighbor array (the nodes field read at lines
273 and 285). -/
structure AdjacencyEntry where
  nodes : List NeighborRef
  deriving DecidableEq

/-- A JavaScript Map with string keys, embedded as an insertion-ordered
association list whose keys are pairwise distinct by construction. -/
abbrev SMap (α : Type) : Type := List (String × α)

variable {α : Type}

/-- Map.prototype.get: the value of the (unique) entry for the key, none
when the key is absent. -/
def SMap.get (m : SMap α) (k : String) : Option α :=
  (List.find? (fun q => q.1 == k) m).map (fun q => q.2)

/-- Map.prototype.set: overwrite the entry in place when the key is
present, otherwise append a fresh entry at the end. -/
def SMap.set (m : SMap α) (k : String) (v : α) : SMap α :=
  if m.any (fun q => q.1 == k) then
    m.map (fun q => if q.1 == k then (k, v) else q)
  else
    m ++ [(k, v)]

/-- Map.prototype.delete: drop the entry for the key; a no-op when the
key is absent. -/
def SMap.erase (m : SMap α) (k : String) : SMap α :=
  m.filter (fun q => !(q.1 == k))

/-- Map.prototype.keys in insertion order. -/
def SMap.keysList (m : SMap α) : List String :=
  m.map (fun q => q.1)

/-- The two adjacency views a getConnectedTables call can select, i.e. the
keyof GraphMetaMap argument (lineagePanel.ts line 265): the source passes
the literal key children or parents. -/
inductive ViewKey where
  | children
  | parents
  deriving DecidableEq

/-- The GraphMetaMap of one project snapshot restricted to the two views
the panel reads: parents (backing downstream queries and the resolver)
and children (backing upstream queries). -/
structure GraphMetaMap where
  parents : SMap AdjacencyEntry
  children : SMap AdjacencyEntry
  deriving DecidableEq

/-- Indexing graphMetaMap[key] (lineagePanel.ts line 272). -/
def GraphMetaMap.view (g : GraphMetaMap) : ViewKey → SMap AdjacencyEntry
  | ViewKey.children => g.children
  | ViewKey.parents => g.parents

/-- Embedding of JavaScript String.prototype.startsWith: the argument is
a leading character sequence of the receiver. -/
def strStartsWith (s p : String) : Bool :=
  s.data.take p.data.length == p.data

/-- Embedding of JavaScript String.prototype.endsWith: the argument is a
trailing character sequence of the receiver. -/
def strEndsWith (s p : String) : Bool :=
  s.data.drop (s.data.length - p.data.length) == p.data

/-- The out-degree expression dependencyNodes.get(k)?.nodes.length || 0
(lineagePanel.ts line 285, and again lines 367-368): the length of the
neighbor list of the entry for k, and 0 when k has no entry. -/
def countOf (view : SMap AdjacencyEntry) (k : String) : Nat :=
  match view.get k with
  | some e => e.nodes.length
  | none => 0

/-- The value part of a Table before the table field is attached, i.e.
the Omit Table "table" parameter of addToTables (line 278). -/
structure TableValue where
  url : String
  count : Nat
  label : String
  deriving DecidableEq

/-- The addToTables closure (lineagePanel.ts lines 278-282): the tables
Map keyed by table name is embedded directly by its insertion-ordered
value list (every stored value carries its key in the table field, so the
list determines the Map). An entry is added only when the key is not yet
present: the first occurrence wins. -/
def addToTables (tables : List Table) (k : String) (v : TableValue) : List Table :=
  if tables.any (fun t => t.table == k) then tables
  else tables ++ [{ table := k, url := v.url, count := v.count, label := v.label }]

/-- The body of the forEach over node.nodes (lineagePanel.ts lines
283-292): compute the child's out-degree in the same view and hand the
child to addToTables. -/
def connectStep (dependencyNodes : SMap AdjacencyEntry) (acc : List Table)
    (child : NeighborRef) : List Table :=
  addToTables acc child.key
    { url := child.url, count := countOf dependencyNodes child.key, label := child.label }

/-- The Table produced for a neighbor child (what addToTables stores for
it when its key is fresh). -/
def mkTable (dependencyNodes : SMap AdjacencyEntry) (child : NeighborRef) : Table :=
  { table := child.key, url := child.url
    count := countOf dependencyNodes child.key, label := child.label }

/-- Insertion step of the stable sort embedding Array.prototype.sort. -/
def insertTable (le : Table → Table → Bool) (a : Table) : List Table → List Table
  | [] => [a]
  | b :: l => if le a b then a :: b :: l else b :: insertTable le a l

/-- Stable insertion sort embedding Array.prototype.sort with a
comparator (lineagePanel.ts lines 293-295 sort by
a.label.localeCompare(b.label)). -/
def sortTables (le : Table → Table → Bool) : List Table → List Table
  | [] => []
  | a :: l => insertTable le a (sortTables le l)

/-- Embedding of getConnectedTables (lineagePanel.ts lines 264-296).
lcompare stands for String.prototype.localeCompare; graphMetaMap is the
value this.getGraphMetaMap() returned (none when that call returned
undefined). Note the early return when the node key is absent from the
selected view yields undefined, embedded as none. -/
def getConnectedTables (lcompare : String → String → Int)
    (graphMetaMap : Option GraphMetaMap) (key : ViewKey) (table : String) :
    Option (List Table) :=
  match graphMetaMap with
  | none => none
  | some gm =>
    match (gm.view key).get table with
    | none => none
    | some node =>
      some (sortTables (fun a b => decide (lcompare a.label b.label ≤ 0))
        (node.nodes.foldl (connectStep (gm.view key)) []))

/-- Embedding of getUpstreamTables (lineagePanel.ts lines 298-300): an
upstream query reads the children view. -/
def getUpstreamTables (lcompare : String → String → Int)
    (graphMetaMap : Option GraphMetaMap) (table : String) : Option (List Table) :=
  getConnectedTables lcompare graphMetaMap ViewKey.children table

/-- Embedding of getDownstreamTables (lineagePanel.ts lines 302-304): a
downstream query reads the parents view. -/
def getDownstreamTables (lcompare : String → String → Int)
    (graphMetaMap : Option GraphMetaMap) (table : String) : Option (List Table) :=
  getConnectedTables lcompare graphMetaMap ViewKey.parents table

/-- The args of a request message (lineagePanel.ts line 242): url, id and
the params object carrying the table name. -/
structure RequestArgs where
  url : String
  id : Nat
  table : String
  deriving DecidableEq

/-- The body assigned by handleRequest for a recognised url: an object
with a tables field whose value may itself be undefined (when the query
returned undefined). -/
structure ResponseBody where
  tables : Option (List Table)
  deriving DecidableEq

/-- The args of the response message posted by handleRequest
(lineagePanel.ts lines 254-261). -/
structure ResponseArgs where
  id : Nat
  body : Option ResponseBody
  status : Bool
  deriving DecidableEq

/-- Embedding of handleRequest (lineagePanel.ts lines 242-262). The two
consecutive if statements assigning the body variable of the source are
an if/else chain here, which is equivalent because no url equals both
literals; body stays undefined (none) for every other url. The posted
response always carries status: true. -/
def handleRequest (lcompare : String → String → Int)
    (graphMetaMap : Option GraphMetaMap) (args : RequestArgs) : ResponseArgs :=
  { id := args.id
    body :=
      if args.url == "upstreamTables" then
        some { tables := getUpstreamTables lcompare graphMetaMap args.table }
      else if args.url == "downstreamTables" then
        some { tables := getDownstreamTables lcompare graphMetaMap args.table }
      else none
    status := true }

/-- The node record getStartingNode wraps in its result (lineagePanel.ts
lines 369-376). -/
structure StartNode where
  table : String
  url : String
  upstreamCount : Nat
  downstreamCount : Nat
  deriving DecidableEq

/-- Embedding of getStartingNode (lineagePanel.ts lines 351-377).
graphMetaMap is the value this.getGraphMetaMap() returned; fileName is
path.basename(activeTextEditor.document.fileName, ".sql"); uriPath is
activeTextEditor.document.uri.path. The resolver scans the keys of the
parents view in insertion order and Array.prototype.find takes the first
key that ends with "." + fileName and starts with "model.". -/
def getStartingNode (graphMetaMap : Option GraphMetaMap) (fileName : String)
    (uriPath : String) : Option StartNode :=
  match graphMetaMap with
  | none => none
  | some gm =>
    match (gm.view ViewKey.parents).keysList.find?
        (fun k => strEndsWith k ("." ++ fileName) && strStartsWith k "model.") with
    | none => none
    | some key =>
      some { table := key, url := uriPath
             upstreamCount := countOf (gm.view ViewKey.children) key
             downstreamCount := countOf (gm.view ViewKey.parents) key }

/-- The event payload for one added project (manifestCacheChangedEvent):
the projectRoot is identified by its fsPath string and carries the new
GraphMetaMap. -/
structure ManifestCacheProjectAddedEvent where
  projectRoot : String
  graphMetaMap : GraphMetaMap
  deriving DecidableEq

/-- The event payload for one removed project. -/
structure ManifestCacheProjectRemovedEvent where
  projectRoot : String
  deriving DecidableEq

/-- A ManifestCacheChangedEvent: optional lists of added and removed
projects (the source iterates event.added?.forEach and
event.removed?.forEach). -/
structure ManifestCacheChangedEvent where
  added : Option (List ManifestCacheProjectAddedEvent)
  removed : Option (List ManifestCacheProjectRemovedEvent)

/-- The eventMap field of the panel: Map from projectRoot.fsPath to the
latest added event for that project (lineagePanel.ts line 190). -/
abbrev EventMap : Type := SMap ManifestCacheProjectAddedEvent

/-- Embedding of onManifestCacheChanged (lineagePanel.ts lines 211-219)
restricted to its effect on eventMap: set every added project, then
delete every removed project. -/
def onManifestCacheChanged (eventMap : EventMap)
    (event : ManifestCacheChangedEvent) : EventMap :=
  let afterAdded := (event.added.getD []).foldl
    (fun m a => m.set a.projectRoot a) eventMap
  (event.removed.getD []).foldl (fun m r => m.erase r.projectRoot) afterAdded

/-- Embedding of getGraphMetaMap (lineagePanel.ts lines 331-349):
projectRootpath is none when there is no active editor or
getProjectRootpath returned undefined; otherwise the eventMap entry for
the root path supplies the GraphMetaMap. -/
def getGraphMetaMap (eventMap : EventMap) (projectRootpath : Option String) :
    Option GraphMetaMap :=
  match projectRootpath with
  | none => none
  | some p =>
    match eventMap.get p with
    | none => none
    | some event => some event.graphMetaMap

/-- A concrete consistent comparator standing in for localeCompare in
closed instances: compare two strings by length. -/
def cmpW (a b : String) : Int :=
  (a.length : Int) - (b.length : Int)

/-- Concrete neighbor entry with a duplicated key whose later occurrence
carries a different url and label. -/
def nodeW : AdjacencyEntry :=
  ⟨[⟨"model.p.stg_orders", "u1", "stg_orders"⟩,
    ⟨"model.p.stg_payments", "u2", "b_pay"⟩,
    ⟨"model.p.stg_orders", "u3", "dup_label"⟩]⟩

/-- Concrete snapshot: in the children view, model.p.orders has the
neighbors of nodeW and model.p.stg_orders has one further neighbor;
model.p.stg_payments has no entry of its own. -/
def gmW : GraphMetaMap :=
  { parents := [("model.p.orders", ⟨[]⟩)]
    children :=
      [("model.p.orders", nodeW),
       ("model.p.stg_orders", ⟨[⟨"model.p.raw", "u4", "raw"⟩]⟩)] }

/-- Concrete snapshot whose parents view has two distinct keys that both
start with model. and end with .orders. -/
def gmC2 : GraphMetaMap :=
  { parents := [("model.a.orders", ⟨[]⟩), ("model.b.orders", ⟨[]⟩)]
    children := [] }

/-- The query result for model.p.orders in the children view of gmW under
cmpW: deduplicated (first occurrence of model.p.stg_orders wins) and
sorted by label length ascending. -/
def tsW : List Table :=
  [⟨"model.p.stg_payments", "u2", 0, "b_pay"⟩,
   ⟨"model.p.stg_orders", "u1", 1, "stg_orders"⟩]

/-- A concrete added event for the store instances. -/
def aW : ManifestCacheProjectAddedEvent :=
  ⟨"proj", gmW⟩

/-! Laws of the Map embedding used by the Store claims. -/

theorem find?_map_update (v : α) :
    ∀ (m : SMap α) (k : String), m.any (fun q => q.1 == k) = true →
      List.find? (fun q => q.1 == k)
        (m.map (fun q => if q.1 == k then (k, v) else q)) = some (k, v) := by
  intro m
  induction m with
  | nil => intro k h; simp at h
  | cons p rest ih =>
    intro k h
    rw [List.map_cons]
    by_cases hp : (p.1 == k) = true
    · rw [if_pos hp, List.find?_cons_of_pos (p := fun q : String × α => q.1 == k) _ (beq_self_eq_true k)]
    · rw [List.any_cons, Bool.or_eq_true] at h
      rcases h with h | h
      · exact absurd h hp
      · rw [if_neg hp, List.find?_cons_of_neg (p := fun q : String × α => q.1 == k) _ hp]
        exact ih k h

theorem find?_append_absent (v : α) :
    ∀ (m : SMap α) (k : String), m.any (fun q => q.1 == k) = false →
      List.find? (fun q => q.1 == k) (m ++ [(k, v)]) = some (k, v) := by
  intro m
  induction m with
  | nil =>
    intro k h
    rw [List.nil_append, List.find?_cons_of_pos (p := fun q : String × α => q.1 == k) _ (beq_self_eq_true k)]
  | cons p rest ih =>
    intro k h
    rw [List.any_cons, Bool.or_eq_false_iff] at h
    have hp : ¬((p.1 == k) = true) := by rw [h.1]; exact Bool.false_ne_true
    rw [List.cons_append, List.find?_cons_of_neg (p := fun q : String × α => q.1 == k) _ hp]
    exact ih k h.2

theorem find?_map_update_ne (v : α) (k k' : String) (hne : k' ≠ k) :
    ∀ (m : SMap α),
      List.find? (fun q => q.1 == k')
        (m.map (fun q => if q.1 == k then (k, v) else q)) =
      List.find? (fun q => q.1 == k') m := by
  have h1 : ¬((k == k') = true) := by
    rw [beq_iff_eq]; exact fun h => hne h.symm
  intro m
  induction m with
  | nil => rfl
  | cons p rest ih =>
    rw [List.map_cons]
    by_cases hp : (p.1 == k) = true
    · have hpk : p.1 = k := by rwa [beq_iff_eq] at hp
      have h2 : ¬((p.1 == k') = true) := by rw [hpk]; exact h1
      rw [if_pos hp, List.find?_cons_of_neg (p := fun q : String × α => q.1 == k') _ h1,
        List.find?_cons_of_neg (p := fun q : String × α => q.1 == k') _ h2]
      exact ih
    · rw [if_neg hp]
      by_cases hq : (p.1 == k') = true
      · rw [List.find?_cons_of_pos (p := fun q : String × α => q.1 == k') _ hq,
          List.find?_cons_of_pos (p := fun q : String × α => q.1 == k') _ hq]
      · rw [List.find?_cons_of_neg (p := fun q : String × α => q.1 == k') _ hq,
          List.find?_cons_of_neg (p := fun q : String × α => q.1 == k') _ hq]
        exact ih

theorem find?_append_ne (v : α) (k k' : String) (hne : k' ≠ k) (m : SMap α) :
    List.find? (fun q => q.1 == k') (m ++ [(k, v)]) =
      List.find? (fun q => q.1 == k') m := by
  have h1 : ¬((k == k') = true) := by
    rw [beq_iff_eq]; exact fun h => hne h.symm
  induction m with
  | nil => rw [List.nil_append, List.find?_cons_of_neg (p := fun q : String × α => q.1 == k') _ h1]
  | cons p rest ih =>
    rw [List.cons_append]
    by_cases hq : (p.1 == k') = true
    · rw [List.find?_cons_of_pos (p := fun q : String × α => q.1 == k') _ hq,
        List.find?_cons_of_pos (p := fun q : String × α => q.1 == k') _ hq]
    · rw [List.find?_cons_of_neg (p := fun q : String × α => q.1 == k') _ hq,
        List.find?_cons_of_neg (p := fun q : String × α => q.1 == k') _ hq]
      exact ih

theorem SMap.get_set_self (m : SMap α) (k : String) (v : α) :
    (m.set k v).get k = some v := by
  unfold SMap.set SMap.get
  by_cases h : m.any (fun q => q.1 == k) = true
  · rw [if_pos h, find?_map_update v m k h]
    rfl
  · have h' : m.any (fun q => q.1 == k) = false := by
      cases hb : m.any (fun q => q.1 == k)
      · rfl
      · exact absurd hb h
    rw [if_neg h, find?_append_absent v m k h']
    rfl

theorem SMap.get_set_ne (m : SMap α) (k k' : String) (v : α) (hne : k' ≠ k) :
    (m.set k v).get k' = m.get k' := by
  unfold SMap.set SMap.get
  by_cases h : m.any (fun q => q.1 == k) = true
  · rw [if_pos h, find?_map_update_ne v k k' hne m]
  · rw [if_neg h, find?_append_ne v k k' hne m]

theorem SMap.erase_of_get_none (m : SMap α) (k : String) (h : m.get k = none) :
    m.erase k = m := by
  unfold SMap.get at h
  rw [Option.map_eq_none'] at h
  rw [List.find?_eq_none] at h
  unfold SMap.erase
  rw [List.filter_eq_self]
  intro q hq
  have := h q hq
  cases hb : (q.1 == k)
  · rfl
  · exact absurd hb this

theorem SMap.get_erase_self (m : SMap α) (k : String) :
    (m.erase k).get k = none := by
  unfold SMap.get SMap.erase
  rw [Option.map_eq_none']
  rw [List.find?_eq_none]
  intro q hq
  rw [List.mem_filter] at hq
  have := hq.2
  cases hb : (q.1 == k)
  · simp
  · rw [hb] at this; simp at this

/-! Laws of the sort embedding. -/

theorem mem_insertTable (le : Table → Table → Bool) (a : Table) :
    ∀ (l : List Table) (x : Table), x ∈ insertTable le a l ↔ x = a ∨ x ∈ l := by
  intro l
  induction l with
  | nil => intro x; simp [insertTable]
  | cons b l ih =>
    intro x
    unfold insertTable
    by_cases h : le a b = true
    · simp [h]
    · simp only [if_neg h, List.mem_cons, ih x]
      tauto

theorem perm_insertTable (le : Table → Table → Bool) (a : Table) :
    ∀ l : List Table, (insertTable le a l).Perm (a :: l) := by
  intro l
  induction l with
  | nil => exact List.Perm.refl _
  | cons b l ih =>
    unfold insertTable
    by_cases h : le a b = true
    · rw [if_pos h]
    · rw [if_neg h]
      exact (ih.cons b).trans (List.Perm.swap a b l)

theorem perm_sortTables (le : Table → Table → Bool) :
    ∀ l : List Table, (sortTables le l).Perm l := by
  intro l
  induction l with
  | nil => exact List.Perm.refl _
  | cons a l ih =>
    unfold sortTables
    exact (perm_insertTable le a (sortTables le l)).trans (ih.cons a)

theorem sorted_insertTable (le : Table → Table → Bool)
    (htr : ∀ x y z, le x y = true → le y z = true → le x z = true)
    (hto : ∀ x y, le x y = true ∨ le y x = true) (a : Table) :
    ∀ l : List Table, l.Pairwise (fun x y => le x y = true) →
      (insertTable le a l).Pairwise (fun x y => le x y = true) := by
  intro l
  induction l with
  | nil => intro _; simp [insertTable]
  | cons b l ih =>
    intro hl
    rw [List.pairwise_cons] at hl
    unfold insertTable
    by_cases h : le a b = true
    · rw [if_pos h, List.pairwise_cons]
      refine ⟨?_, List.pairwise_cons.mpr hl⟩
      intro x hx
      rw [List.mem_cons] at hx
      rcases hx with hx | hx
      · rw [hx]; exact h
      · exact htr a b x h (hl.1 x hx)
    · rw [if_neg h, List.pairwise_cons]
      refine ⟨?_, ih hl.2⟩
      intro x hx
      rw [mem_insertTable le a l x] at hx
      rcases hx with hx | hx
      · rw [hx]
        rcases hto a b with hab | hba
        · exact absurd hab h
        · exact hba
      · exact hl.1 x hx

theorem sorted_sortTables (le : Table → Table → Bool)
    (htr : ∀ x y z, le x y = true → le y z = true → le x z = true)
    (hto : ∀ x y, le x y = true ∨ le y x = true) :
    ∀ l : List Table, (sortTables le l).Pairwise (fun x y => le x y = true) := by
  intro l
  induction l with
  | nil => exact List.Pairwise.nil
  | cons a l ih =>
    unfold sortTables
    exact sorted_insertTable le htr hto a (sortTables le l) ih

/-! Laws of the dedup-by-key accumulation. -/

theorem connectStep_eq (view : SMap AdjacencyEntry) (acc : List Table)
    (child : NeighborRef) :
    connectStep view acc child =
      if acc.any (fun t => t.table == child.key) then acc
      else acc ++ [mkTable view child] := rfl

theorem pairwise_foldl_connectStep (view : SMap AdjacencyEntry) :
    ∀ (cs : List NeighborRef) (acc : List Table),
      acc.Pairwise (fun a b => a.table ≠ b.table) →
      (cs.foldl (connectStep view) acc).Pairwise (fun a b => a.table ≠ b.table) := by
  intro cs
  induction cs with
  | nil => intro acc h; simpa using h
  | cons c cs ih =>
    intro acc h
    rw [List.foldl_cons, connectStep_eq]
    by_cases hany : acc.any (fun t => t.table == c.key) = true
    · rw [if_pos hany]; exact ih acc h
    · rw [if_neg hany]
      apply ih
      rw [List.pairwise_append]
      refine ⟨h, List.pairwise_singleton _ _, ?_⟩
      intro a ha b hb
      rw [List.mem_singleton] at hb
      subst hb
      intro he
      apply hany
      rw [List.any_eq_true]
      exact ⟨a, ha, by rw [beq_iff_eq]; exact he⟩

theorem mem_foldl_connectStep (view : SMap AdjacencyEntry) :
    ∀ (cs : List NeighborRef) (acc : List Table) (t : Table),
      t ∈ cs.foldl (connectStep view) acc →
      t ∈ acc ∨ (acc.any (fun x => x.table == t.table) = false ∧
        ∃ c, cs.find? (fun x => x.key == t.table) = some c ∧ t = mkTable view c) := by
  intro cs
  induction cs with
  | nil =>
    intro acc t h
    left
    simpa using h
  | cons c cs ih =>
    intro acc t h
    rw [List.foldl_cons, connectStep_eq] at h
    by_cases hany : acc.any (fun x => x.table == c.key) = true
    · rw [if_pos hany] at h
      rcases ih acc t h with h1 | ⟨hn, c0, hfind, ht⟩
      · exact Or.inl h1
      · right
        refine ⟨hn, c0, ?_, ht⟩
        have hck : ¬((c.key == t.table) = true) := by
          rw [beq_iff_eq]
          intro he
          rw [List.any_eq_true] at hany
          obtain ⟨x, hx, hxk⟩ := hany
          rw [beq_iff_eq] at hxk
          have hx2 : acc.any (fun x => x.table == t.table) = true := by
            rw [List.any_eq_true]
            exact ⟨x, hx, by rw [beq_iff_eq, hxk, he]⟩
          rw [hx2] at hn
          simp at hn
        rw [List.find?_cons_of_neg (p := fun x : NeighborRef => x.key == t.table) _ hck]
        exact hfind
    · rw [if_neg hany] at h
      rcases ih _ t h with h1 | ⟨hn, c0, hfind, ht⟩
      · rw [List.mem_append] at h1
        rcases h1 with h1 | h1
        · exact Or.inl h1
        · rw [List.mem_singleton] at h1
          subst h1
          right
          refine ⟨?_, c, ?_, rfl⟩
          · cases hb : acc.any (fun x => x.table == (mkTable view c).table)
            · rfl
            · exact absurd hb hany
          · exact List.find?_cons_of_pos
              (p := fun x : NeighborRef => x.key == (mkTable view c).table) _
              (beq_self_eq_true c.key)
      · rw [List.any_append, Bool.or_eq_false_iff] at hn
        right
        refine ⟨hn.1, c0, ?_, ht⟩
        have hck : ¬((c.key == t.table) = true) := by
          intro he
          have h2 := hn.2
          rw [List.any_cons, List.any_nil, Bool.or_false] at h2
          have h3 : ((mkTable view c).table == t.table) = true := he
          rw [h3] at h2
          simp at h2
        rw [List.find?_cons_of_neg (p := fun x : NeighborRef => x.key == t.table) _ hck]
        exact hfind

/-- Destructuring of a successful getConnectedTables call: the node entry
exists in the selected view and the result is the sorted fold. -/
theorem getConnectedTables_some (lcompare : String → String → Int)
    (gm : GraphMetaMap) (key : ViewKey) (table : String) (ts : List Table)
    (h : getConnectedTables lcompare (some gm) key table = some ts) :
    ∃ node, (gm.view key).get table = some node ∧
      ts = sortTables (fun a b => decide (lcompare a.label b.label ≤ 0))
        (node.nodes.foldl (connectStep (gm.view key)) []) := by
  have hred : getConnectedTables lcompare (some gm) key table =
      match (gm.view key).get table with
      | none => none
      | some node =>
        some (sortTables (fun a b => decide (lcompare a.label b.label ≤ 0))
          (node.nodes.foldl (connectStep (gm.view key)) [])) := rfl
  rw [hred] at h
  cases hn : (gm.view key).get table with
  | none => rw [hn] at h; simp at h
  | some node =>
    rw [hn] at h
    simp only [Option.some.injEq] at h
    exact ⟨node, rfl, h.symm⟩

/-- First-match decomposition of List.find?: a found element splits the
list into a matching-free initial segment, the element, and a tail. -/
theorem find?_decomp {β : Type} (p : β → Bool) :
    ∀ (l : List β) (a : β), l.find? p = some a →
      ∃ l₁ l₂, l = l₁ ++ a :: l₂ ∧ ∀ x ∈ l₁, p x = false := by
  intro l
  induction l with
  | nil => intro a h; simp at h
  | cons b l ih =>
    intro a h
    cases hb : p b
    · rw [List.find?_cons_of_neg _ (by rw [hb]; simp)] at h
      obtain ⟨l₁, l₂, he, hall⟩ := ih a h
      refine ⟨b :: l₁, l₂, by rw [List.cons_append, he], ?_⟩
      intro x hx
      rcases List.mem_cons.mp hx with hx | hx
      · rw [hx]; exact hb
      · exact hall x hx
    · rw [List.find?_cons_of_pos _ hb] at h
      injection h with h
      exact ⟨[], l, by rw [List.nil_append, h], by intro x hx; simp at hx⟩

theorem cmpW_trans :
    ∀ a b c : String, cmpW a b ≤ 0 → cmpW b c ≤ 0 → cmpW a c ≤ 0 := by
  intro a b c
  unfold cmpW
  omega

theorem cmpW_total : ∀ a b : String, cmpW a b ≤ 0 ∨ cmpW b a ≤ 0 := by
  intro a b
  unfold cmpW
  omega

/-! The claims. -/

/-- C1 counterexample: querying the children view of gmW for a node key
with no entry there returns none (undefined), not the empty sequence the
claim asserts. -/
theorem connected_absent_key_counterexample :
    getConnectedTables cmpW (some gmW) ViewKey.children "model.p.absent" = none ∧
    getConnectedTables cmpW (some gmW) ViewKey.children "model.p.absent" ≠
      some [] := by
  exact ⟨by decide, by decide⟩

/-- C1 (amended): for every snapshot and direction, querying connected
tables for a nodeKey that is absent from the selected adjacency view
returns the absent result (undefined, embedded as none), not an error and
not an empty sequence. -/
theorem connected_absent_key_none (lcompare : String → String → Int)
    (gm : GraphMetaMap) (key : ViewKey) (table : String)
    (h : (gm.view key).get table = none) :
    getConnectedTables lcompare (some gm) key table = none := by
  have hred : getConnectedTables lcompare (some gm) key table =
      match (gm.view key).get table with
      | none => none
      | some node =>
        some (sortTables (fun a b => decide (lcompare a.label b.label ≤ 0))
          (node.nodes.foldl (connectStep (gm.view key)) [])) := rfl
  rw [hred, h]

/-- C1 witness: the amended statement at the concrete snapshot gmW. -/
theorem connected_absent_key_none_witness :
    getConnectedTables cmpW (some gmW) ViewKey.children "model.p.absent" = none :=
  connected_absent_key_none cmpW gmW ViewKey.children "model.p.absent" (by decide)

/-- C2 counterexample: in gmC2 both model.a.orders and model.b.orders
match the resolver predicate for base name orders, yet getStartingNode
returns the first match instead of the absent result the claim asserts
for an ambiguous match. -/
theorem starting_node_ambiguous_counterexample :
    (strEndsWith "model.a.orders" ("." ++ "orders") &&
      strStartsWith "model.a.orders" "model.") = true ∧
    (strEndsWith "model.b.orders" ("." ++ "orders") &&
      strStartsWith "model.b.orders" "model.") = true ∧
    getStartingNode (some gmC2) "orders" "/proj/models/orders.sql" =
      some { table := "model.a.orders", url := "/proj/models/orders.sql"
             upstreamCount := 0, downstreamCount := 0 } := by
  exact ⟨by decide, by decide, by decide⟩

/-- C2 (amended): the resolver matches a downstream-view key only if it
starts with model. and ends with dot plus the base name; it returns
absent exactly when no key matches, and otherwise returns the first
matching key in the view's insertion order (an ambiguous match is
resolved by first-match-wins, not by returning absent). -/
theorem starting_node_first_match (gm : GraphMetaMap) (fileName uriPath : String) :
    match getStartingNode (some gm) fileName uriPath with
    | none =>
      ∀ k ∈ (gm.view ViewKey.parents).keysList,
        (strEndsWith k ("." ++ fileName) && strStartsWith k "model.") = false
    | some n =>
      (strEndsWith n.table ("." ++ fileName) &&
        strStartsWith n.table "model.") = true ∧
      n.url = uriPath ∧
      ∃ l₁ l₂, (gm.view ViewKey.parents).keysList = l₁ ++ n.table :: l₂ ∧
        ∀ k ∈ l₁,
          (strEndsWith k ("." ++ fileName) && strStartsWith k "model.") = false := by
  have hred : getStartingNode (some gm) fileName uriPath =
      match (gm.view ViewKey.parents).keysList.find?
          (fun k => strEndsWith k ("." ++ fileName) && strStartsWith k "model.") with
      | none => none
      | some key =>
        some { table := key, url := uriPath
               upstreamCount := countOf (gm.view ViewKey.children) key
               downstreamCount := countOf (gm.view ViewKey.parents) key } := rfl
  cases hf : (gm.view ViewKey.parents).keysList.find?
      (fun k => strEndsWith k ("." ++ fileName) && strStartsWith k "model.") with
  | none =>
    have hres : getStartingNode (some gm) fileName uriPath = none := by
      rw [hred, hf]
    rw [hres]
    intro k hk
    have hnk := List.find?_eq_none.mp hf k hk
    cases hb : (strEndsWith k ("." ++ fileName) && strStartsWith k "model.")
    · rfl
    · exact absurd hb hnk
  | some key =>
    have hres : getStartingNode (some gm) fileName uriPath =
        some { table := key, url := uriPath
               upstreamCount := countOf (gm.view ViewKey.children) key
               downstreamCount := countOf (gm.view ViewKey.parents) key } := by
      rw [hred, hf]
    rw [hres]
    show (strEndsWith key ("." ++ fileName) && strStartsWith key "model.") = true ∧
      uriPath = uriPath ∧
      ∃ l₁ l₂, (gm.view ViewKey.parents).keysList = l₁ ++ key :: l₂ ∧
        ∀ k ∈ l₁,
          (strEndsWith k ("." ++ fileName) && strStartsWith k "model.") = false
    have hkey := List.find?_some hf
    refine ⟨hkey, rfl, ?_⟩
    exact find?_decomp _ _ key hf

/-- C2 witness: the amended statement at the concrete snapshot gmC2 with
base name orders, where the branch taken is the first-match branch. -/
theorem starting_node_first_match_witness :
    match getStartingNode (some gmC2) "orders" "/proj/models/orders.sql" with
    | none =>
      ∀ k ∈ (gmC2.view ViewKey.parents).keysList,
        (strEndsWith k ("." ++ "orders") && strStartsWith k "model.") = false
    | some n =>
      (strEndsWith n.table ("." ++ "orders") &&
        strStartsWith n.table "model.") = true ∧
      n.url = "/proj/models/orders.sql" ∧
      ∃ l₁ l₂, (gmC2.view ViewKey.parents).keysList = l₁ ++ n.table :: l₂ ∧
        ∀ k ∈ l₁,
          (strEndsWith k ("." ++ "orders") && strStartsWith k "model.") = false :=
  starting_node_first_match gmC2 "orders" "/proj/models/orders.sql"

/-- C3: an upstream query reads only the children view and a downstream
query reads only the parents view: replacing the non-selected view of the
snapshot never changes the query result. -/
theorem query_reads_only_selected_view (lcompare : String → String → Int)
    (pa1 pa2 ch1 ch2 : SMap AdjacencyEntry) (table : String) :
    getUpstreamTables lcompare (some ⟨pa1, ch1⟩) table =
      getUpstreamTables lcompare (some ⟨pa2, ch1⟩) table ∧
    getDownstreamTables lcompare (some ⟨pa1, ch1⟩) table =
      getDownstreamTables lcompare (some ⟨pa1, ch2⟩) table :=
  ⟨rfl, rfl⟩

/-- C4: every connected-tables result has pairwise-distinct table values,
and each entry carries the url, label and count of the first NeighborRef
with its key in the source neighbor sequence (later duplicates are
dropped without merging). -/
theorem connected_dedup_first_wins (lcompare : String → String → Int)
    (gm : GraphMetaMap) (key : ViewKey) (table : String)
    (node : AdjacencyEntry) (ts : List Table)
    (hnode : (gm.view key).get table = some node)
    (hts : getConnectedTables lcompare (some gm) key table = some ts) :
    ts.Pairwise (fun a b => a.table ≠ b.table) ∧
    ∀ t ∈ ts, ∃ c, node.nodes.find? (fun x => x.key == t.table) = some c ∧
      t.url = c.url ∧ t.label = c.label ∧
      t.count = countOf (gm.view key) c.key := by
  obtain ⟨node', hn', hts'⟩ :=
    getConnectedTables_some lcompare gm key table ts hts
  rw [hnode] at hn'
  injection hn' with hn'
  subst hn'
  constructor
  · rw [hts']
    have hperm := perm_sortTables
      (fun a b => decide (lcompare a.label b.label ≤ 0))
      (node.nodes.foldl (connectStep (gm.view key)) [])
    have hpw := pairwise_foldl_connectStep (gm.view key) node.nodes []
      List.Pairwise.nil
    exact (hperm.pairwise_iff (fun h => h.symm)).mpr hpw
  · intro t ht
    rw [hts'] at ht
    have ht2 : t ∈ node.nodes.foldl (connectStep (gm.view key)) [] :=
      (perm_sortTables _ _).mem_iff.mp ht
    rcases mem_foldl_connectStep (gm.view key) node.nodes [] t ht2 with
      h1 | ⟨_, c, hfind, htc⟩
    · simp at h1
    · subst htc
      exact ⟨c, hfind, rfl, rfl, rfl⟩

/-- C4 witness: the dedup statement at the concrete snapshot gmW whose
neighbor list contains a duplicated key with diverging url and label. -/
theorem connected_dedup_first_wins_witness :
    tsW.Pairwise (fun a b => a.table ≠ b.table) ∧
    ∀ t ∈ tsW, ∃ c, nodeW.nodes.find? (fun x => x.key == t.table) = some c ∧
      t.url = c.url ∧ t.label = c.label ∧
      t.count = countOf (gmW.view ViewKey.children) c.key :=
  connected_dedup_first_wins cmpW gmW ViewKey.children "model.p.orders"
    nodeW tsW (by decide) (by decide)

/-- C5: whenever localeCompare behaves as a consistent comparator
(transitive and total on the nonpositive side), every connected-tables
result is non-decreasing by label under it. -/
theorem connected_sorted_by_label (lcompare : String → String → Int)
    (htr : ∀ a b c : String,
      lcompare a b ≤ 0 → lcompare b c ≤ 0 → lcompare a c ≤ 0)
    (hto : ∀ a b : String, lcompare a b ≤ 0 ∨ lcompare b a ≤ 0)
    (gm : GraphMetaMap) (key : ViewKey) (table : String) (ts : List Table)
    (hts : getConnectedTables lcompare (some gm) key table = some ts) :
    ts.Pairwise (fun a b => lcompare a.label b.label ≤ 0) := by
  obtain ⟨node, hn, hts'⟩ :=
    getConnectedTables_some lcompare gm key table ts hts
  rw [hts']
  have hst := sorted_sortTables
    (fun a b => decide (lcompare a.label b.label ≤ 0))
    (fun x y z hxy hyz => by
      rw [decide_eq_true_eq] at hxy hyz ⊢
      exact htr _ _ _ hxy hyz)
    (fun x y => by
      rcases hto x.label y.label with h | h
      · exact Or.inl (decide_eq_true h)
      · exact Or.inr (decide_eq_true h))
    (node.nodes.foldl (connectStep (gm.view key)) [])
  exact hst.imp (fun h => of_decide_eq_true h)

/-- C5 witness: the sortedness statement at the concrete snapshot gmW
under the concrete comparator cmpW. -/
theorem connected_sorted_by_label_witness :
    tsW.Pairwise (fun a b => cmpW a.label b.label ≤ 0) :=
  connected_sorted_by_label cmpW cmpW_trans cmpW_total gmW ViewKey.children
    "model.p.orders" tsW (by decide)

/-- C6: every result entry's count is the length of that neighbor key's
own neighbor sequence under the same selected view, 0 when the key has no
entry there (that is exactly countOf). -/
theorem connected_count_accuracy (lcompare : String → String → Int)
    (gm : GraphMetaMap) (key : ViewKey) (table : String) (ts : List Table)
    (hts : getConnectedTables lcompare (some gm) key table = some ts) :
    ∀ t ∈ ts, t.count = countOf (gm.view key) t.table := by
  obtain ⟨node, hn, hts'⟩ :=
    getConnectedTables_some lcompare gm key table ts hts
  intro t ht
  rw [hts'] at ht
  have ht2 : t ∈ node.nodes.foldl (connectStep (gm.view key)) [] :=
    (perm_sortTables _ _).mem_iff.mp ht
  rcases mem_foldl_connectStep (gm.view key) node.nodes [] t ht2 with
    h1 | ⟨_, c, hfind, htc⟩
  · simp at h1
  · subst htc
    rfl

/-- C6 witness: the count statement at the concrete snapshot gmW,
instantiated at the result entry for model.p.stg_orders, whose own entry
in the children view has one neighbor. -/
theorem connected_count_accuracy_witness :
    (⟨"model.p.stg_orders", "u1", 1, "stg_orders"⟩ : Table).count =
      countOf (gmW.view ViewKey.children)
        (⟨"model.p.stg_orders", "u1", 1, "stg_orders"⟩ : Table).table :=
  connected_count_accuracy cmpW gmW ViewKey.children "model.p.orders" tsW
    (by decide) ⟨"model.p.stg_orders", "u1", 1, "stg_orders"⟩ (by decide)

/-- C7: applying a Removed event for a projectId absent from the store
leaves the eventMap unchanged, and a lookup of that projectId still
returns absent. -/
theorem removed_absent_noop (m : EventMap) (p : String)
    (h : m.get p = none) :
    onManifestCacheChanged m { added := none, removed := some [⟨p⟩] } = m ∧
    (onManifestCacheChanged m
      { added := none, removed := some [⟨p⟩] }).get p = none := by
  have h1 : onManifestCacheChanged m
      { added := none, removed := some [⟨p⟩] } = m.erase p := rfl
  constructor
  · rw [h1]
    exact SMap.erase_of_get_none m p h
  · rw [h1]
    exact SMap.get_erase_self m p

/-- C7 witness: removing an absent projectId from a one-entry store. -/
theorem removed_absent_noop_witness :
    onManifestCacheChanged [("proj", aW)]
      { added := none, removed := some [⟨"absent"⟩] } = [("proj", aW)] ∧
    (onManifestCacheChanged [("proj", aW)]
      { added := none, removed := some [⟨"absent"⟩] }).get "absent" = none :=
  removed_absent_noop [("proj", aW)] "absent" (by decide)

/-- C8: after Added(p, snap2) following Added(p, snap1), the store entry
for p is exactly the snap2 event and nothing of snap1 remains; every
other projectId is untouched by either event. -/
theorem added_replaces_snapshot (m : EventMap) (p : String)
    (s1 s2 : GraphMetaMap) (q : String) (hq : q ≠ p) :
    ((onManifestCacheChanged
        (onManifestCacheChanged m { added := some [⟨p, s1⟩], removed := none })
        { added := some [⟨p, s2⟩], removed := none }).get p = some ⟨p, s2⟩) ∧
    ((onManifestCacheChanged m
        { added := some [⟨p, s1⟩], removed := none }).get q = m.get q) ∧
    ((onManifestCacheChanged
        (onManifestCacheChanged m { added := some [⟨p, s1⟩], removed := none })
        { added := some [⟨p, s2⟩], removed := none }).get q = m.get q) := by
  have h1 : onManifestCacheChanged m
      { added := some [⟨p, s1⟩], removed := none } = m.set p ⟨p, s1⟩ := rfl
  have h2 : onManifestCacheChanged (m.set p ⟨p, s1⟩)
      { added := some [⟨p, s2⟩], removed := none } =
      (m.set p ⟨p, s1⟩).set p ⟨p, s2⟩ := rfl
  rw [h1, h2]
  refine ⟨SMap.get_set_self (SMap.set m p ⟨p, s1⟩) p ⟨p, s2⟩,
    SMap.get_set_ne m p q ⟨p, s1⟩ hq, ?_⟩
  rw [SMap.get_set_ne (SMap.set m p ⟨p, s1⟩) p q ⟨p, s2⟩ hq,
    SMap.get_set_ne m p q ⟨p, s1⟩ hq]

/-- C8 witness: replacing the snapshot for proj twice starting from the
empty store, with other untouched. -/
theorem added_replaces_snapshot_witness :
    ((onManifestCacheChanged
        (onManifestCacheChanged ([] : EventMap)
          { added := some [⟨"proj", gmW⟩], removed := none })
        { added := some [⟨"proj", gmC2⟩], removed := none }).get "proj" =
      some ⟨"proj", gmC2⟩) ∧
    ((onManifestCacheChanged ([] : EventMap)
        { added := some [⟨"proj", gmW⟩], removed := none }).get "other" =
      SMap.get ([] : EventMap) "other") ∧
    ((onManifestCacheChanged
        (onManifestCacheChanged ([] : EventMap)
          { added := some [⟨"proj", gmW⟩], removed := none })
        { added := some [⟨"proj", gmC2⟩], removed := none }).get "other" =
      SMap.get ([] : EventMap) "other") :=
  added_replaces_snapshot ([] : EventMap) "proj" gmW gmC2 "other" (by decide)

/-- C9: a request whose url is neither upstreamTables nor downstreamTables
still yields a response for the request's id, with an omitted (none) body
and status true, rather than an error. -/
theorem unknown_url_response (lcompare : String → String → Int)
    (graphMetaMap : Option GraphMetaMap) (args : RequestArgs)
    (h1 : args.url ≠ "upstreamTables") (h2 : args.url ≠ "downstreamTables") :
    handleRequest lcompare graphMetaMap args =
      { id := args.id, body := none, status := true } := by
  unfold handleRequest
  have hb1 : ¬((args.url == "upstreamTables") = true) := by
    rw [beq_iff_eq]; exact h1
  have hb2 : ¬((args.url == "downstreamTables") = true) := by
    rw [beq_iff_eq]; exact h2
  rw [if_neg hb1, if_neg hb2]

/-- C9 witness: an unknown url at a concrete request and snapshot. -/
theorem unknown_url_response_witness :
    handleRequest cmpW (some gmW)
      { url := "bogus", id := 7, table := "model.p.orders" } =
      { id := 7, body := none, status := true } :=
  unknown_url_response cmpW (some gmW)
    { url := "bogus", id := 7, table := "model.p.orders" }
    (by decide) (by decide)

/-- C10: the response posted by handleRequest carries status true for
every request, whatever the url, snapshot availability or node key. -/
theorem response_status_always_true (lcompare : String → String → Int)
    (graphMetaMap : Option GraphMetaMap) (args : RequestArgs) :
    (handleRequest lcompare graphMetaMap args).status = true := rfl

end LineagePanel
